import Mathlib

/-!
Verification of the health-chatbot plan lifecycle and progress-tracking engine.

Shallow embedding of the Python sources:
  * `database.py`    — `DatabaseManager` plan store and specialist counters
  * `plan_generator.py` — `HealthPlanAgent` extraction paths
  * `routes/plans.py` — `daily_progress_report` (progress reconciler)
  * `routes/chat.py`  — deactivation plan matching
  * `utils.py`        — `process_progress_from_ai_response`

Modelling conventions:
  * A Python `str` is a list of Unicode code points (`Str := List Nat`).
    `s.lower()` is modelled by ASCII case mapping (all comparisons in the
    sources are over ASCII keyword lists), `s.split()` by splitting on
    whitespace runs, and `a in s` by list-infix containment — exactly
    Python's substring test.
  * The MongoDB collection behind `DatabaseManager` is a list of plan
    documents threaded through each operation as explicit state.  The
    `user_id` field is the constant `"default_user"` on every document the
    code ever writes (`create_health_plan` hardcodes it) and every query
    filters on that same constant, so the field is dropped from the model.
    Timestamps (`created_at` / `updated_at`) are abstract `Nat` clock values
    supplied by the caller in place of `datetime.now()`.
  * External library calls with no logic of this repository inside them
    (the `re` module's match lists, `json.loads`, the LLM chain) are
    abstracted as parameters; the comments on each definition say which.
-/

namespace HealthBot

/-- A Python string: its sequence of code points. -/
abbrev Str := List Nat

/-- Turn a Lean string literal into the code-point model (witness helper). -/
def str (s : String) : Str := s.data.map Char.toNat

/-- Python `str.split()` whitespace set (space, tab, LF, CR, VT, FF). -/
def pyIsSpace (c : Nat) : Bool :=
  c == 32 || c == 9 || c == 10 || c == 13 || c == 11 || c == 12

/-- ASCII case mapping of one code point, as done by `str.lower()` on the
ASCII keyword material the sources compare against. -/
def pyLowerChar (c : Nat) : Nat :=
  if 65 ≤ c ∧ c ≤ 90 then c + 32 else c

/-- `s.lower()`. -/
def pyLower (s : Str) : Str := s.map pyLowerChar

/-- `a in s` for Python strings: `a` occurs as a contiguous substring. -/
def pySubstr (a s : Str) : Bool := decide (a <:+: s)

/-- Accumulator worker for `s.split()`: `acc` is the word currently being
read (empty when between words). -/
def pySplitAux : Str → Str → List Str
  | [], acc => if acc.isEmpty then [] else [acc]
  | c :: rest, acc =>
    if pyIsSpace c then
      if acc.isEmpty then pySplitAux rest []
      else acc :: pySplitAux rest []
    else pySplitAux rest (acc ++ [c])

/-- `s.split()`: maximal runs of non-whitespace characters, in order;
whitespace runs separate words and produce no empty words. -/
def pySplit (s : Str) : List Str := pySplitAux s []

/-- `" ".join(ws)` (used by the extractor's whitespace normalisation). -/
def pyJoin (ws : List Str) : Str := List.intercalate [32] ws

/-! ## Data model (`database.py` top of file)

`TaskProgress`: task name plus the list of completion dates (`YYYY-MM-DD`
strings).  `HealthPlan` document as stored in the `health_plans`
collection. -/

structure TaskProgress where
  task_name : Str
  progress : List Str
deriving DecidableEq, Repr

structure HealthPlan where
  id : Str
  plan_name : Str
  condition : Str
  timeline_days : Int
  tasks : List TaskProgress
  active : Bool
  created_at : Nat
  updated_at : Nat
deriving DecidableEq, Repr

/-- The `health_plans` collection. -/
abbrev Store := List HealthPlan

/-- First document matching `{"_id": pid}` (Mongo `find_one`; `_id` is the
unique key, and every stored document carries the single tenant id). -/
def findPlan (st : Store) (pid : Str) : Option HealthPlan :=
  st.find? (fun p => decide (p.id = pid))

/-- `True` iff some document has `_id = pid`. -/
def planExists (st : Store) (pid : Str) : Bool :=
  st.any (fun p => decide (p.id = pid))

/-! ## `DatabaseManager.create_health_plan` (database.py 226-253)

Builds `TaskProgress(task_name=task, progress=[])` for each task name,
stores `timeline_days = min(timeline_days, 7)`, `active = True`, and
inserts the document.  `newId` stands for `str(uuid.uuid4())` and `now`
for `datetime.now(timezone.utc)`. -/

def create_health_plan (st : Store) (newId : Str) (now : Nat)
    (plan_name condition : Str) (timeline_days : Int) (tasks : List Str) :
    Store × Str :=
  let plan : HealthPlan :=
    { id := newId
      plan_name := plan_name
      condition := condition
      timeline_days := min timeline_days 7
      tasks := tasks.map (fun t => { task_name := t, progress := [] })
      active := true
      created_at := now
      updated_at := now }
  (st ++ [plan], newId)

/-! ## `DatabaseManager.get_active_plans` (database.py 255-278)

`find({"user_id": "default_user", "active": True}, sort=[("created_at", -1)])`:
the active documents, newest creation first. -/

def get_active_plans (st : Store) : List HealthPlan :=
  List.insertionSort (fun a b => b.created_at ≤ a.created_at)
    (st.filter (fun p => p.active))

/-! ## `DatabaseManager.update_task_progress` (database.py 280-312)

Fetches the plan; if absent returns `False`.  Otherwise appends `date` to
the progress list of the **first** task named `task_name` (only when the
date is not already present; the loop `break`s after the first name
match), writes the task array and a fresh `updated_at` back under the same
`_id`, and returns `True` — even when no task carried that name. -/

def markFirstTask (ts : List TaskProgress) (tn date : Str) :
    List TaskProgress :=
  match ts with
  | [] => []
  | t :: rest =>
    if t.task_name = tn then
      (if date ∈ t.progress then t
       else { t with progress := t.progress ++ [date] }) :: rest
    else t :: markFirstTask rest tn date

/-- `update_one({"_id": pid}, {"$set": {"tasks": ts, "updated_at": now}})`:
rewrite the first document keyed `pid`. -/
def setTasks (st : Store) (pid : Str) (ts : List TaskProgress) (now : Nat) :
    Store :=
  match st with
  | [] => []
  | p :: rest =>
    if p.id = pid then { p with tasks := ts, updated_at := now } :: rest
    else p :: setTasks rest pid ts now

def update_task_progress (st : Store) (now : Nat) (pid tn date : Str) :
    Store × Bool :=
  match findPlan st pid with
  | none => (st, false)
  | some p => (setTasks st pid (markFirstTask p.tasks tn date) now, true)

/-! ## `DatabaseManager.deactivate_plan` (database.py 314-332)

`update_one({"_id": pid, ...}, {"$set": {"active": False, "updated_at": now}})`
and report `modified_count > 0`; the `$set` always rewrites `updated_at`,
so the call counts as a modification exactly when a document matched. -/

def deactivate_plan (st : Store) (now : Nat) (pid : Str) : Store × Bool :=
  match st with
  | [] => ([], false)
  | p :: rest =>
    if p.id = pid then
      ({ p with active := false, updated_at := now } :: rest, true)
    else
      (p :: (deactivate_plan rest now pid).1, (deactivate_plan rest now pid).2)

/-- Completion-date list of task `tn` of the first plan keyed `pid`. -/
def progressOf (st : Store) (pid tn : Str) : Option (List Str) :=
  (findPlan st pid).bind fun p =>
    (p.tasks.find? (fun t => decide (t.task_name = tn))).map
      (fun t => t.progress)

/-! ## Specialist counters and the analytics trailing window
(`database.py` 334-454)

A `SpecialistStats` document: the `daily_word_counts` dict is an
association list keyed by calendar date.  Dates are modelled as integer
day numbers — `strftime("%Y-%m-%d")` is a strictly monotone encoding of
days, so chronological order of date strings is the order of the day
numbers.  `get_specialist_stats()` returns the collection's documents,
which the window function consumes directly. -/

structure SpecStat where
  specialist_name : Str
  daily_word_counts : List (Int × Nat)
deriving DecidableEq, Repr

/-- `daily_word_counts.get(date, 0)`. -/
def lookupCount (d : List (Int × Nat)) (date : Int) : Nat :=
  ((d.find? (fun x => decide (x.1 = date))).map (fun x => x.2)).getD 0

/-- One entry of the trailing-window series.  The float fields
(`time_spent_minutes` / `time_spent_seconds`) are the fixed display
transform `words / 1.5` of `total_words` and carry no further state; they
are not modelled. -/
structure DayEntry where
  date : Int
  total_words : Nat
  specialist_breakdown : List (Str × Nat)
deriving DecidableEq, Repr

/-- `DatabaseManager.get_time_spent_last_7_days` (database.py 411-454):
`if not stats: return []`; otherwise build the dates `today - 0 .. today - 6`,
reverse them, and emit one entry per date with the summed word counts and
the positive per-specialist breakdown. -/
def get_time_spent_last_7_days (stats : List SpecStat) (today : Int) :
    List DayEntry :=
  if stats.isEmpty then []
  else
    (((List.range 7).map (fun i => today - (i : Int))).reverse).map fun d =>
      { date := d
        total_words := (stats.map (fun s => lookupCount s.daily_word_counts d)).sum
        specialist_breakdown :=
          (stats.filter (fun s => 0 < lookupCount s.daily_word_counts d)).map
            (fun s => (s.specialist_name, lookupCount s.daily_word_counts d)) }

/-! ## Plan extraction (`plan_generator.py`)

The day-pattern path `extract_daily_tasks_from_response` runs
`re.findall(r'Day\s*(\d+):\s*([^.]+...)', text)`; the `re` module is an
external library, so the list of `(day-number, description)` capture pairs
it yields is taken as the input here.  The condition guess and the plan
title guess are two further `re.search` calls over the same text whose
results feed only the `condition` / `plan_name` fields; they are likewise
abstracted as inputs (`conditionGuess`, `titleGuess`).

The LLM path `analyze_for_plan_generation` invokes the chain, locates a
fenced JSON block and `json.loads` it; the composition of chain output,
block search and JSON parse is abstracted as an optional parsed
dictionary (`none` = no block found or parse error). -/

/-- The parsed plan dictionary, Python-dict style: absent keys are `none`
and read through `.get(key, default)` at each use site.  `hasError` marks
the presence of an `"error"` key. -/
structure PlanDict where
  needs_plan : Option Bool := none
  condition : Option Str := none
  plan_name : Option Str := none
  timeline_days : Option Int := none
  tasks : Option (List Str) := none
  hasError : Bool := false
deriving DecidableEq, Repr

/-- One day-block's task name: the description is whitespace-normalised
(`' '.join(task_content.strip().split())`), truncated to 200 characters
(197 plus `"..."`), and prefixed with its day label. -/
def cleanTask (dayNum desc : Str) : Str :=
  let clean := pyJoin (pySplit desc)
  let clean := if 200 < clean.length then clean.take 197 ++ str ("...") else clean
  str ("Day ") ++ dayNum ++ str (": ") ++ clean

/-- `HealthPlanAgent.extract_daily_tasks_from_response`
(plan_generator.py 78-145): no day-pattern matches ⇒ `(False, error)`;
otherwise `(True, dict)` with `timeline_days = min(len(matches), 7)` and
one cleaned task per match. -/
def extract_daily_tasks_from_response (ms : List (Str × Str))
    (conditionGuess titleGuess : Str) : Bool × PlanDict :=
  if ms.isEmpty then
    (false, { hasError := true })
  else
    (true,
      { needs_plan := some true
        condition := some conditionGuess
        plan_name := some titleGuess
        timeline_days := some (min (ms.length : Int) 7)
        tasks := some (ms.map (fun m => cleanTask m.1 m.2))
        hasError := false })

/-- `HealthPlanAgent.analyze_for_plan_generation`
(plan_generator.py 147-178): on a parse failure return `(False, error)`;
otherwise return `(plan_data.get("needs_plan", False), plan_data)` — the
parsed dictionary is passed through unmodified. -/
def analyze_for_plan_generation (parsed : Option PlanDict) :
    Bool × PlanDict :=
  match parsed with
  | none => (false, { hasError := true })
  | some d => (d.needs_plan.getD false, d)

/-- `HealthPlanAgent.create_and_store_plan` (plan_generator.py 180-209):
nothing is stored unless `needs_plan`; `timeline_days` is read with
default 7 and clamped with `min(·, 7)`; an empty task list aborts;
otherwise `create_health_plan` persists the plan. -/
def create_and_store_plan (st : Store) (newId : Str) (now : Nat)
    (d : PlanDict) : Store × Option Str :=
  if !(d.needs_plan.getD false) then (st, none)
  else
    let timeline_days := min (d.timeline_days.getD 7) 7
    let tasks := d.tasks.getD []
    if tasks.isEmpty then (st, none)
    else
      let r := create_health_plan st newId now
        (d.plan_name.getD (str ("Health Plan")))
        (d.condition.getD (str ("General Health"))) timeline_days tasks
      (r.1, some r.2)

/-! ## Plan matching (`routes/chat.py` 98-127, `routes/plans.py` 316-328)

All three matchers scan `get_active_plans()` in order and return the first
plan whose predicate holds. -/

/-- Deactivation matching (chat.py 105-116): words longer than 3
characters from the plan's lowercased condition and name, any of which
occurring as a substring of the lowercased message selects the plan. -/
def deactMatches (msg : Str) (p : HealthPlan) : Bool :=
  ((pySplit (pyLower p.condition) ++ pySplit (pyLower p.plan_name)).filter
    (fun w => 3 < w.length)).any (fun w => pySubstr w (pyLower msg))

/-- chat.py: `target_plan` resolution for a deactivation request. -/
def chatDeactTarget (st : Store) (msg : Str) : Option HealthPlan :=
  (get_active_plans st).find? (deactMatches msg)

/-- plans.py 317-321 (explicit `specific_plan_condition` supplied): words
longer than 3 characters of the lowercased target condition, any of which
occurring inside the plan's lowercased condition selects the plan. -/
def condTargetMatches (tc : Str) (p : HealthPlan) : Bool :=
  ((pySplit (pyLower tc)).filter (fun w => 3 < w.length)).any
    (fun w => pySubstr w (pyLower p.condition))

def condTarget (plans : List HealthPlan) (tc : Str) : Option HealthPlan :=
  plans.find? (condTargetMatches tc)

/-- plans.py 323-327 (no explicit condition): words longer than 3
characters of the plan's lowercased condition, any of which occurring in
the (already lowercased) message selects the plan. -/
def heurTargetMatches (msgLower : Str) (p : HealthPlan) : Bool :=
  ((pySplit (pyLower p.condition)).filter (fun w => 3 < w.length)).any
    (fun w => pySubstr w msgLower)

def heurTarget (plans : List HealthPlan) (msgLower : Str) :
    Option HealthPlan :=
  plans.find? (heurTargetMatches msgLower)

/-! ## Progress reconciliation (`routes/plans.py` 291-375, `utils.py` 63-111) -/

/-- `progress_indicators` (plans.py 301). -/
def progress_indicators : List Str :=
  [str ("done"), str ("completed"), str ("finished"), str ("did"),
   str ("yes"), str ("✅"), str ("✓"), str ("all"), str ("everything")]

/-- `any(indicator in message_lower for indicator in progress_indicators)`. -/
def hasIndicator (msgLower : Str) : Bool :=
  progress_indicators.any (fun i => pySubstr i msgLower)

/-- `len([ind for ind in progress_indicators if ind in message_lower])`. -/
def indicatorCount (msgLower : Str) : Nat :=
  (progress_indicators.filter (fun i => pySubstr i msgLower)).length

/-- `any(word in task_name.lower() for word in message_lower.split() if
len(word) > 3)` (plans.py 349): a message word longer than 3 characters
occurring inside the lowercased task name. -/
def taskOverlap (msgLower : Str) (t : TaskProgress) : Bool :=
  ((pySplit msgLower).filter (fun w => 3 < w.length)).any
    (fun w => pySubstr w (pyLower t.task_name))

/-- The heuristic-mode per-task test (plans.py 347-350), evaluated on a
task that still lacks today's completion. -/
def heurTaskPred (msgLower : Str) (t : TaskProgress) : Bool :=
  hasIndicator msgLower &&
    (taskOverlap msgLower t || 2 ≤ indicatorCount msgLower)

/-- The inner marking loop shared by both reconciler modes: walk the
snapshot task list of plan `pid`, and for each task still pending today
that passes `pred`, issue `update_task_progress` and collect the task
name on success.  The store is threaded through the successive update
calls. -/
def markTasksLoop (st : Store) (now : Nat) (pid today : Str)
    (ts : List TaskProgress) (pred : TaskProgress → Bool) :
    Store × List Str :=
  match ts with
  | [] => (st, [])
  | t :: rest =>
    if today ∈ t.progress then markTasksLoop st now pid today rest pred
    else if pred t then
      let u := update_task_progress st now pid t.task_name today
      let r := markTasksLoop u.1 now pid today rest pred
      (r.1, if u.2 then t.task_name :: r.2 else r.2)
    else markTasksLoop st now pid today rest pred

/-- The plan/task double loop shared by plans.py 341-354 and utils.py
85-105: apply `markTasksLoop` to every plan of the snapshot in order, with
a per-task test.  Collected names are paired here with their plan's id —
the sources collect bare names, but a task's identity includes its plan
(§ data model). -/
def planLoop (st : Store) (now : Nat) (today : Str)
    (pred : TaskProgress → Bool) :
    List HealthPlan → Store × List (Str × Str)
  | [] => (st, [])
  | p :: rest =>
    let m := markTasksLoop st now p.id today p.tasks pred
    let r := planLoop m.1 now today pred rest
    (r.1, m.2.map (fun n => (p.id, n)) ++ r.2)

/-- `daily_progress_report` (plans.py 291-375), the progress-updating
core: the chat-message persistence and the rendered reply text around it
are plumbing.  Directed mode triggers on the `mark_all_complete` flag or
the phrases `"mark all"` / `"all tasks"` in the lowercased message;
otherwise heuristic mode runs.  Returns the updated store and the
`(plan id, task name)` completions written. -/
def daily_progress_report (st : Store) (now : Nat) (today msg : Str)
    (mark_all_complete : Bool) (specific_plan_condition : Option Str) :
    Store × List (Str × Str) :=
  let plans := get_active_plans st
  let msgLower := pyLower msg
  if mark_all_complete || pySubstr (str ("mark all")) msgLower
      || pySubstr (str ("all tasks")) msgLower then
    let target :=
      match specific_plan_condition with
      | some tc => condTarget plans tc
      | none => heurTarget plans msgLower
    match target with
    | none => (st, [])
    | some p =>
      let m := markTasksLoop st now p.id today p.tasks (fun _ => true)
      (m.1, m.2.map (fun n => (p.id, n)))
  else
    planLoop st now today (heurTaskPred msgLower) plans

/-- `completion_words` (utils.py 78). -/
def completion_words : List Str :=
  [str ("did"), str ("completed"), str ("finished"), str ("done"),
   str ("yes"), str ("✅"), str ("✓")]

/-- `process_progress_from_ai_response` (utils.py 63-111): if the user
message holds any completion word, mark every pending task whose
lowercased name contains a word (longer than 3 characters) of its own
split, mentioned in the user message.  Returns the store and the count of
marked tasks. -/
def process_progress_from_ai_response (st : Store) (now : Nat)
    (today userMsg : Str) : Store × Nat :=
  let plans := get_active_plans st
  let userLower := pyLower userMsg
  if plans.isEmpty then (st, 0)
  else if completion_words.any (fun w => pySubstr w userLower) then
    let pred : TaskProgress → Bool := fun t =>
      ((pySplit (pyLower t.task_name)).filter (fun w => 3 < w.length)).any
        (fun w => pySubstr w userLower)
    let r := planLoop st now today pred plans
    (r.1, r.2.length)
  else (st, 0)


/-! ## Sample data for concrete evaluations -/

def sampleTask : TaskProgress :=
  { task_name := str ("Do gentle stretches"), progress := [] }

def samplePlan : HealthPlan :=
  { id := str ("p1")
    plan_name := str ("Back Pain Relief Plan")
    condition := str ("back pain")
    timeline_days := 7
    tasks := [sampleTask]
    active := true
    created_at := 0
    updated_at := 0 }

def sampleStore : Store := [samplePlan]

/-- A plan whose condition and name contain only words of length at most
3. -/
def shortWordPlan : HealthPlan :=
  { id := str ("p2")
    plan_name := str ("my pg")
    condition := str ("be ok")
    timeline_days := 3
    tasks := [{ task_name := str ("nap"), progress := [] }]
    active := true
    created_at := 1
    updated_at := 1 }

def sampleStat : SpecStat :=
  { specialist_name := str ("Ruby"), daily_word_counts := [(0, 30)] }

/-! # Lemmas on the string model -/

/-- `pySplitAux` with a word in progress: the word absorbs the leading
non-whitespace run of `s`, and splitting continues past it. -/
theorem pySplitAux_run (s : Str) :
    ∀ acc : Str, acc ≠ [] →
      pySplitAux s acc =
        (acc ++ s.takeWhile (fun x => !pyIsSpace x)) ::
          pySplit (s.dropWhile (fun x => !pyIsSpace x)) := by
  induction s with
  | nil =>
    intro acc h
    have : acc.isEmpty = false := by
      cases acc with
      | nil => exact absurd rfl h
      | cons a as => rfl
    simp [pySplitAux, pySplit, this]
  | cons c rest ih =>
    intro acc h
    have hne : acc.isEmpty = false := by
      cases acc with
      | nil => exact absurd rfl h
      | cons a as => rfl
    by_cases hc : pyIsSpace c = true
    · rw [List.takeWhile_cons_of_neg (by simp [hc]),
        List.dropWhile_cons_of_neg (by simp [hc])]
      have lhs : pySplitAux (c :: rest) acc = acc :: pySplitAux rest [] := by
        simp [pySplitAux, hc, hne]
      have rhs : pySplit (c :: rest) = pySplitAux rest [] := by
        simp [pySplit, pySplitAux, hc]
      rw [lhs, rhs]
      simp
    · rw [List.takeWhile_cons_of_pos (by simp [hc]),
        List.dropWhile_cons_of_pos (by simp [hc])]
      show pySplitAux (c :: rest) acc = _
      have step : pySplitAux (c :: rest) acc = pySplitAux rest (acc ++ [c]) := by
        simp [pySplitAux, hc]
      rw [step, ih (acc ++ [c]) (by simp)]
      simp

theorem pySplit_cons_space {c : Nat} (rest : Str) (hc : pyIsSpace c = true) :
    pySplit (c :: rest) = pySplit rest := by
  simp [pySplit, pySplitAux, hc]

theorem pySplit_cons_word {c : Nat} (rest : Str) (hc : pyIsSpace c = false) :
    pySplit (c :: rest) =
      (c :: rest.takeWhile (fun x => !pyIsSpace x)) ::
        pySplit (rest.dropWhile (fun x => !pyIsSpace x)) := by
  have step : pySplit (c :: rest) = pySplitAux rest [c] := by
    simp [pySplit, pySplitAux, hc]
  rw [step, pySplitAux_run rest [c] (by simp)]
  simp

/-- Words produced by `split()` contain no whitespace character. -/
theorem pySplitAux_no_space (s : Str) :
    ∀ acc : Str, (∀ c ∈ acc, pyIsSpace c = false) →
      ∀ w ∈ pySplitAux s acc, ∀ c ∈ w, pyIsSpace c = false := by
  induction s with
  | nil =>
    intro acc hacc w hw c hc
    by_cases he : acc.isEmpty
    · simp [pySplitAux, he] at hw
    · simp [pySplitAux, he] at hw
      exact hacc c (hw ▸ hc)
  | cons d rest ih =>
    intro acc hacc w hw c hc
    by_cases hd : pyIsSpace d = true
    · by_cases he : acc.isEmpty
      · rw [show pySplitAux (d :: rest) acc = pySplitAux rest [] by
          simp [pySplitAux, hd, he]] at hw
        exact ih [] (by simp) w hw c hc
      · rw [show pySplitAux (d :: rest) acc = acc :: pySplitAux rest [] by
          simp [pySplitAux, hd, he]] at hw
        rcases List.mem_cons.1 hw with h | h
        · exact hacc c (h ▸ hc)
        · exact ih [] (by simp) w h c hc
    · rw [show pySplitAux (d :: rest) acc = pySplitAux rest (acc ++ [d]) by
        simp [pySplitAux, hd]] at hw
      refine ih (acc ++ [d]) ?_ w hw c hc
      intro x hx
      rcases List.mem_append.1 hx with h | h
      · exact hacc x h
      · rw [List.mem_singleton.1 h]
        exact Bool.not_eq_true _ ▸ (by simpa using hd)

theorem pySplit_no_space {s w : Str} (hw : w ∈ pySplit s) :
    ∀ c ∈ w, pyIsSpace c = false :=
  pySplitAux_no_space s [] (by simp) w hw

/-- ASCII lowering of a code point preserves whitespace-hood. -/
theorem pyIsSpace_pyLowerChar (c : Nat) :
    pyIsSpace (pyLowerChar c) = pyIsSpace c := by
  by_cases h : 65 ≤ c ∧ c ≤ 90
  · have h1 : pyIsSpace (c + 32) = false := by
      simp only [pyIsSpace, Bool.or_eq_false_iff, beq_eq_false_iff_ne, ne_eq]
      omega
    have h2 : pyIsSpace c = false := by
      simp only [pyIsSpace, Bool.or_eq_false_iff, beq_eq_false_iff_ne, ne_eq]
      omega
    simp [pyLowerChar, h, h1, h2]
  · simp [pyLowerChar, h]

/-- Splitting commutes with lowercasing. -/
theorem pySplitAux_lower (s : Str) :
    ∀ acc : Str, pySplitAux (pyLower s) (pyLower acc) =
      (pySplitAux s acc).map pyLower := by
  induction s with
  | nil =>
    intro acc
    cases acc with
    | nil => rfl
    | cons a as => rfl
  | cons c rest ih =>
    intro acc
    show pySplitAux (pyLowerChar c :: pyLower rest) (pyLower acc) = _
    by_cases hc : pyIsSpace c = true
    · have hc' : pyIsSpace (pyLowerChar c) = true := by
        rw [pyIsSpace_pyLowerChar]; exact hc
      cases acc with
      | nil =>
        rw [show pySplitAux (pyLowerChar c :: pyLower rest) (pyLower []) =
            pySplitAux (pyLower rest) [] by simp [pySplitAux, hc', pyLower]]
        rw [show pySplitAux (c :: rest) [] = pySplitAux rest [] by
          simp [pySplitAux, hc]]
        have := ih ([] : Str)
        simpa [pyLower] using this
      | cons a as =>
        rw [show pySplitAux (pyLowerChar c :: pyLower rest)
            (pyLower (a :: as)) =
            pyLower (a :: as) :: pySplitAux (pyLower rest) [] by
          simp [pySplitAux, hc', pyLower]]
        rw [show pySplitAux (c :: rest) (a :: as) =
            (a :: as) :: pySplitAux rest [] by simp [pySplitAux, hc]]
        have := ih ([] : Str)
        simp only [pyLower, List.map_nil] at this
        simp [this, pyLower]
    · have hc' : pyIsSpace (pyLowerChar c) = false := by
        rw [pyIsSpace_pyLowerChar]; exact Bool.not_eq_true _ ▸ (by simpa using hc)
      rw [show pySplitAux (pyLowerChar c :: pyLower rest) (pyLower acc) =
          pySplitAux (pyLower rest) (pyLower acc ++ [pyLowerChar c]) by
        simp [pySplitAux, hc']]
      rw [show pySplitAux (c :: rest) acc = pySplitAux rest (acc ++ [c]) by
        simp [pySplitAux, hc]]
      have : pyLower acc ++ [pyLowerChar c] = pyLower (acc ++ [c]) := by
        simp [pyLower]
      rw [this, ih (acc ++ [c])]

theorem pySplit_lower (s : Str) :
    pySplit (pyLower s) = (pySplit s).map pyLower := by
  have := pySplitAux_lower s ([] : Str)
  simpa [pySplit, pyLower] using this

/-- Word lengths are invariant under lowering. -/
theorem pySplit_lower_len {s : Str} {k : Nat}
    (h : ∀ w ∈ pySplit s, w.length ≤ k) :
    ∀ w ∈ pySplit (pyLower s), w.length ≤ k := by
  rw [pySplit_lower]
  intro w hw
  obtain ⟨v, hv, rfl⟩ := List.mem_map.1 hw
  simpa [pyLower] using h v hv

/-- A prefix made of characters satisfying `p` is a prefix of the
`takeWhile p` part. -/
theorem prefix_takeWhile_of_forall {p : Nat → Bool} :
    ∀ (l r : Str), l <+: r → (∀ x ∈ l, p x = true) →
      l <+: r.takeWhile p := by
  intro l
  induction l with
  | nil => intro r _ _; exact List.nil_prefix
  | cons a l ih =>
    intro r hpre hall
    obtain ⟨t, ht⟩ := hpre
    cases r with
    | nil => exact absurd ht (by simp)
    | cons b r' =>
      have hab : a = b := by
        have := congrArg (fun x => x.head?) ht
        simpa using this
      have hlr : l ++ t = r' := by
        have := congrArg List.tail ht
        simpa using this
      subst hab
      rw [List.takeWhile_cons_of_pos (hall a (List.mem_cons_self a l))]
      have hl : l <+: r' := hlr ▸ List.prefix_append l t
      exact List.cons_prefix_cons.2
        ⟨rfl, ih r' hl (fun x hx => hall x (List.mem_cons_of_mem a hx))⟩

/-- Dropping the head character can only shorten the split words. -/
theorem pySplit_tail_words {c : Nat} {rest : Str}
    (h : ∀ w ∈ pySplit (c :: rest), w.length ≤ 3) :
    ∀ w ∈ pySplit rest, w.length ≤ 3 := by
  by_cases hc : pyIsSpace c = true
  · rw [pySplit_cons_space rest hc] at h
    exact h
  · have hc' : pyIsSpace c = false := by simpa using hc
    rw [pySplit_cons_word rest hc'] at h
    cases rest with
    | nil => intro w hw; simp [pySplit, pySplitAux] at hw
    | cons r rest₂ =>
      by_cases hr : pyIsSpace r = true
      · rw [List.dropWhile_cons_of_neg (by simp [hr])] at h
        intro w hw
        exact h w (List.mem_cons_of_mem _ hw)
      · have hr' : pyIsSpace r = false := by simpa using hr
        rw [List.takeWhile_cons_of_pos (by simp [hr']),
          List.dropWhile_cons_of_pos (by simp [hr'])] at h
        rw [pySplit_cons_word rest₂ hr']
        intro w hw
        rcases List.mem_cons.1 hw with hweq | hwmem
        · have hhead := h _ (List.mem_cons_self _ _)
          subst hweq
          simp only [List.length_cons] at hhead ⊢
          omega
        · exact h w (List.mem_cons_of_mem _ hwmem)

/-- Core lemma: in a string all of whose split words have length at most
3, every whitespace-free contiguous substring also has length at most
3 — a word of length 4 or more therefore cannot occur as a substring. -/
theorem infix_short :
    ∀ (s l : Str), (∀ w ∈ pySplit s, w.length ≤ 3) → l <:+: s →
      (∀ c ∈ l, pyIsSpace c = false) → l.length ≤ 3 := by
  intro s
  induction s with
  | nil =>
    intro l _ hl _
    rw [List.infix_nil.1 hl]
    simp
  | cons c rest ih =>
    intro l hs hl hfree
    rcases List.infix_cons_iff.1 hl with hpre | hinf
    · cases l with
      | nil => simp
      | cons a l' =>
        obtain ⟨t, ht⟩ := hpre
        have hac : a = c := by
          have := congrArg (fun x => x.head?) ht
          simpa using this
        have hlt : l' ++ t = rest := by
          have := congrArg List.tail ht
          simpa using this
        have hcfree : pyIsSpace c = false :=
          hac ▸ hfree a (List.mem_cons_self a l')
        have hl'pre : l' <+: rest := hlt ▸ List.prefix_append l' t
        have hl'take : l' <+: rest.takeWhile (fun x => !pyIsSpace x) :=
          prefix_takeWhile_of_forall l' rest hl'pre
            (fun x hx => by simp [hfree x (List.mem_cons_of_mem a hx)])
        have hhead : (c :: rest.takeWhile (fun x => !pyIsSpace x)).length ≤ 3 := by
          refine hs _ ?_
          rw [pySplit_cons_word rest hcfree]
          exact List.mem_cons_self _ _
        have hlen := hl'take.length_le
        simp only [List.length_cons] at hhead ⊢
        omega
    · exact ih l (pySplit_tail_words hs) hinf hfree

/-! # Lemmas on the plan matchers -/

/-- Membership in the active list: exactly the active documents. -/
theorem mem_get_active_plans {st : Store} {p : HealthPlan} :
    p ∈ get_active_plans st ↔ p ∈ st ∧ p.active = true := by
  unfold get_active_plans
  rw [(List.perm_insertionSort _ _).mem_iff, List.mem_filter]

/-- A plan whose condition and name hold only words of length at most 3
never satisfies the chat deactivation matcher, for any message. -/
theorem deactMatches_false {p : HealthPlan}
    (hc : ∀ w ∈ pySplit p.condition, w.length ≤ 3)
    (hn : ∀ w ∈ pySplit p.plan_name, w.length ≤ 3) (msg : Str) :
    deactMatches msg p = false := by
  unfold deactMatches
  rw [List.any_eq_false]
  intro w hw
  rw [List.mem_filter] at hw
  obtain ⟨hwmem, hwlen⟩ := hw
  exfalso
  have hwlen' : 3 < w.length := by simpa using hwlen
  rcases List.mem_append.1 hwmem with h | h
  · have := pySplit_lower_len hc w h
    omega
  · have := pySplit_lower_len hn w h
    omega

/-- Same for the condition-directed target matcher of the reconciler:
here the candidate words come from the caller-supplied condition and are
substring-tested against the plan condition, so the infix lemma is
needed. -/
theorem condTargetMatches_false {p : HealthPlan}
    (hc : ∀ w ∈ pySplit p.condition, w.length ≤ 3) (tc : Str) :
    condTargetMatches tc p = false := by
  unfold condTargetMatches
  rw [List.any_eq_false]
  intro w hw
  rw [List.mem_filter] at hw
  obtain ⟨hwmem, hwlen⟩ := hw
  have hwlen' : 3 < w.length := by simpa using hwlen
  have hfree : ∀ c ∈ w, pyIsSpace c = false := pySplit_no_space hwmem
  simp only [pySubstr, Bool.not_eq_true, decide_eq_false_iff_not]
  intro hinf
  have := infix_short (pyLower p.condition) w (pySplit_lower_len hc) hinf hfree
  omega

/-- Same for the message-keyword target matcher of the reconciler. -/
theorem heurTargetMatches_false {p : HealthPlan}
    (hc : ∀ w ∈ pySplit p.condition, w.length ≤ 3) (msgLower : Str) :
    heurTargetMatches msgLower p = false := by
  unfold heurTargetMatches
  rw [List.any_eq_false]
  intro w hw
  rw [List.mem_filter] at hw
  obtain ⟨hwmem, hwlen⟩ := hw
  exfalso
  have hwlen' : 3 < w.length := by simpa using hwlen
  have := pySplit_lower_len hc w hwmem
  omega

/-- `find?` never returns an element failing its predicate. -/
theorem find?_ne_of_pred_false {P : HealthPlan → Bool} {l : List HealthPlan}
    {p : HealthPlan} (h : P p = false) : l.find? P ≠ some p := by
  intro hfind
  have := List.find?_some hfind
  rw [h] at this
  exact Bool.false_ne_true this

/-! # Lemmas on the plan store -/

/-- `any` and `find?` agree on existence. -/
theorem planExists_eq_isSome (st : Store) (pid : Str) :
    planExists st pid = (findPlan st pid).isSome := by
  induction st with
  | nil => rfl
  | cons p rest ih =>
    by_cases h : p.id = pid <;>
      simp [planExists, findPlan, List.find?_cons, List.any_cons, h, ih,
        planExists, findPlan] at *
    · exact ih

theorem planExists_iff {st : Store} {pid : Str} :
    planExists st pid = true ↔ ∃ p ∈ st, p.id = pid := by
  unfold planExists
  rw [List.any_eq_true]
  simp

/-- Rewriting the task array of plan `pid` updates the looked-up
document accordingly. -/
theorem findPlan_setTasks_self {st : Store} {pid : Str} {p : HealthPlan}
    (h : findPlan st pid = some p) (ts : List TaskProgress) (now : Nat) :
    findPlan (setTasks st pid ts now) pid =
      some { p with tasks := ts, updated_at := now } := by
  induction st with
  | nil => simp [findPlan] at h
  | cons q rest ih =>
    by_cases hq : q.id = pid
    · have hpq : q = p := by
        unfold findPlan at h
        rw [List.find?_cons_of_pos _ (by simp [hq])] at h
        exact Option.some.inj h
      subst hpq
      show findPlan (if q.id = pid then _ else _) pid = _
      rw [if_pos hq]
      unfold findPlan
      rw [List.find?_cons_of_pos _ (by simp [hq])]
    · have h' : findPlan rest pid = some p := by
        unfold findPlan at h
        rw [List.find?_cons_of_neg _ (by simp [hq])] at h
        exact h
      show findPlan (if q.id = pid then _ else _) pid = _
      rw [if_neg hq]
      unfold findPlan
      rw [List.find?_cons_of_neg _ (by simp [hq])]
      exact ih h'

/-- Rewriting the task array of plan `pid` leaves every other key's
lookup unchanged. -/
theorem findPlan_setTasks_ne {st : Store} {pid q : Str} (hq : q ≠ pid)
    (ts : List TaskProgress) (now : Nat) :
    findPlan (setTasks st pid ts now) q = findPlan st q := by
  induction st with
  | nil => rfl
  | cons p rest ih =>
    by_cases hp : p.id = pid
    · show findPlan (if p.id = pid then _ else _) q = _
      rw [if_pos hp]
      unfold findPlan
      rw [List.find?_cons_of_neg _ (by simp [hp, Ne.symm hq]),
        List.find?_cons_of_neg _ (by simp [hp, Ne.symm hq])]
    · show findPlan (if p.id = pid then _ else _) q = _
      rw [if_neg hp]
      by_cases hpq : p.id = q
      · unfold findPlan
        rw [List.find?_cons_of_pos _ (by simp [hpq]),
          List.find?_cons_of_pos _ (by simp [hpq])]
      · unfold findPlan
        rw [List.find?_cons_of_neg _ (by simp [hpq]),
          List.find?_cons_of_neg _ (by simp [hpq])]
        exact ih

/-- `setTasks` does not change which ids exist. -/
theorem planExists_setTasks (st : Store) (pid q : Str)
    (ts : List TaskProgress) (now : Nat) :
    planExists (setTasks st pid ts now) q = planExists st q := by
  induction st with
  | nil => rfl
  | cons p rest ih =>
    by_cases hp : p.id = pid
    · show planExists (if p.id = pid then _ else _) q = _
      rw [if_pos hp]
      simp [planExists, List.any_cons]
    · show planExists (if p.id = pid then _ else _) q = _
      rw [if_neg hp]
      have := ih
      simp only [planExists, List.any_cons] at this ⊢
      rw [this]

/-- The returned flag of `update_task_progress` is plan existence. -/
theorem update_task_progress_snd (st : Store) (now : Nat)
    (pid tn date : Str) :
    (update_task_progress st now pid tn date).2 = planExists st pid := by
  unfold update_task_progress
  rw [planExists_eq_isSome]
  cases h : findPlan st pid <;> simp [h]

/-- `update_task_progress` does not change which ids exist. -/
theorem planExists_update (st : Store) (now : Nat) (pid tn date q : Str) :
    planExists (update_task_progress st now pid tn date).1 q =
      planExists st q := by
  unfold update_task_progress
  cases h : findPlan st pid with
  | none => rfl
  | some p => exact planExists_setTasks st pid q _ now

/-- Marking the same date twice is the identity on the second pass. -/
theorem markFirstTask_idem (ts : List TaskProgress) (tn d : Str) :
    markFirstTask (markFirstTask ts tn d) tn d = markFirstTask ts tn d := by
  induction ts with
  | nil => rfl
  | cons t rest ih =>
    by_cases h : t.task_name = tn
    · by_cases hd : d ∈ t.progress
      · simp [markFirstTask, h, hd]
      · have hmem : d ∈ t.progress ++ [d] :=
          List.mem_append_right _ (List.mem_singleton.2 rfl)
        simp [markFirstTask, h, hd, hmem]
    · simp [markFirstTask, h, ih]

/-- `markFirstTask` can only extend a task's completion list. -/
theorem find?_markFirstTask_superset (ts : List TaskProgress)
    (tn d tn' : Str) {l : List Str}
    (h : ((ts.find? (fun t => decide (t.task_name = tn'))).map
      (fun t => t.progress)) = some l) :
    ∃ l', (((markFirstTask ts tn d).find?
        (fun t => decide (t.task_name = tn'))).map
      (fun t => t.progress)) = some l' ∧ l ⊆ l' := by
  induction ts with
  | nil => simp at h
  | cons t rest ih =>
    by_cases hname : t.task_name = tn
    · by_cases h' : t.task_name = tn'
      · rw [List.find?_cons_of_pos _ (by simp [h'])] at h
        have hl : t.progress = l := by simpa using h
        subst hl
        by_cases hd : d ∈ t.progress
        · refine ⟨t.progress, ?_, List.Subset.refl _⟩
          simp only [markFirstTask, if_pos hname, if_pos hd]
          rw [List.find?_cons_of_pos _ (by simp [h'])]
          rfl
        · refine ⟨t.progress ++ [d], ?_, List.subset_append_left _ _⟩
          simp only [markFirstTask, if_pos hname, if_neg hd]
          rw [List.find?_cons_of_pos _ (by simp [h'])]
          rfl
      · rw [List.find?_cons_of_neg _ (by simp [h'])] at h
        refine ⟨l, ?_, List.Subset.refl _⟩
        by_cases hd : d ∈ t.progress
        · simp only [markFirstTask, if_pos hname, if_pos hd]
          rw [List.find?_cons_of_neg _ (by simp [h'])]
          exact h
        · simp only [markFirstTask, if_pos hname, if_neg hd]
          rw [List.find?_cons_of_neg _ (by simp [h'])]
          exact h
    · by_cases h' : t.task_name = tn'
      · rw [List.find?_cons_of_pos _ (by simp [h'])] at h
        refine ⟨l, ?_, List.Subset.refl _⟩
        simp only [markFirstTask, if_neg hname]
        rw [List.find?_cons_of_pos _ (by simp [h'])]
        exact h
      · rw [List.find?_cons_of_neg _ (by simp [h'])] at h
        obtain ⟨l', hl', hsub⟩ := ih h
        refine ⟨l', ?_, hsub⟩
        simp only [markFirstTask, if_neg hname]
        rw [List.find?_cons_of_neg _ (by simp [h'])]
        exact hl'

/-- One `update_task_progress` call can only grow completion lists. -/
theorem progressOf_update_superset (st : Store) (now : Nat)
    (pid tn d q tn' : Str) {l : List Str}
    (h : progressOf st q tn' = some l) :
    ∃ l', progressOf (update_task_progress st now pid tn d).1 q tn' =
      some l' ∧ l ⊆ l' := by
  cases hf : findPlan st pid with
  | none =>
    refine ⟨l, ?_, List.Subset.refl _⟩
    simp only [update_task_progress, hf]
    exact h
  | some p =>
    have hred : (update_task_progress st now pid tn d).1 =
        setTasks st pid (markFirstTask p.tasks tn d) now := by
      simp [update_task_progress, hf]
    rw [hred]
    by_cases hq : q = pid
    · subst hq
      unfold progressOf at h
      rw [hf] at h
      simp only [Option.some_bind] at h
      obtain ⟨l', hl', hsub⟩ := find?_markFirstTask_superset p.tasks tn d tn' h
      refine ⟨l', ?_, hsub⟩
      unfold progressOf
      rw [findPlan_setTasks_self hf]
      simpa using hl'
    · refine ⟨l, ?_, List.Subset.refl _⟩
      unfold progressOf at h ⊢
      rw [findPlan_setTasks_ne hq]
      exact h

/-- Creating a plan does not disturb any existing completion list. -/
theorem progressOf_create (st : Store) (newId : Str) (now : Nat)
    (n c : Str) (td : Int) (ts : List Str) (q tn : Str) {l : List Str}
    (h : progressOf st q tn = some l) :
    progressOf (create_health_plan st newId now n c td ts).1 q tn =
      some l := by
  unfold progressOf findPlan at h ⊢
  simp only [create_health_plan]
  rw [List.find?_append]
  cases hf : st.find? (fun p => decide (p.id = q)) with
  | none => rw [hf] at h; simp at h
  | some p =>
    rw [hf] at h
    simpa [Option.or] using h

/-- Deactivation touches only the `active` flag and `updated_at`:
completion lists are untouched. -/
theorem progressOf_deactivate (st : Store) (now : Nat) (pid q tn : Str) :
    progressOf (deactivate_plan st now pid).1 q tn = progressOf st q tn := by
  induction st with
  | nil => rfl
  | cons p rest ih =>
    by_cases hp : p.id = pid
    · simp only [deactivate_plan, if_pos hp]
      unfold progressOf findPlan
      by_cases hq : p.id = q
      · rw [List.find?_cons_of_pos _ (by simp [hq]),
          List.find?_cons_of_pos _ (by simp [hq])]
        rfl
      · rw [List.find?_cons_of_neg _ (by simp [hq]),
          List.find?_cons_of_neg _ (by simp [hq])]
    · simp only [deactivate_plan, if_neg hp]
      unfold progressOf findPlan at ih ⊢
      by_cases hq : p.id = q
      · rw [List.find?_cons_of_pos _ (by simp [hq]),
          List.find?_cons_of_pos _ (by simp [hq])]
      · rw [List.find?_cons_of_neg _ (by simp [hq]),
          List.find?_cons_of_neg _ (by simp [hq])]
        exact ih

/-! # Lemmas on the reconciler loops -/

/-- The pending-and-selected test driving the heuristic marking loop. -/
def pendingSel (today : Str) (pred : TaskProgress → Bool)
    (t : TaskProgress) : Bool :=
  !(decide (today ∈ t.progress)) && pred t

/-- The marking loop never changes which plan ids exist. -/
theorem planExists_markTasksLoop (now : Nat) (pid today q : Str)
    (pred : TaskProgress → Bool) :
    ∀ (ts : List TaskProgress) (st : Store),
      planExists (markTasksLoop st now pid today ts pred).1 q =
        planExists st q := by
  intro ts
  induction ts with
  | nil => intro st; rfl
  | cons t rest ih =>
    intro st
    by_cases hm : today ∈ t.progress
    · simp only [markTasksLoop, if_pos hm]
      exact ih st
    · by_cases hp : pred t = true
      · simp only [markTasksLoop, if_neg hm, if_pos hp]
        rw [ih, planExists_update]
      · simp only [markTasksLoop, if_neg hm, if_neg hp]
        exact ih st

/-- When the target plan exists, the marking loop records exactly the
pending tasks passing the test, in order. -/
theorem markTasksLoop_names (now : Nat) (pid today : Str)
    (pred : TaskProgress → Bool) :
    ∀ (ts : List TaskProgress) (st : Store),
      planExists st pid = true →
      (markTasksLoop st now pid today ts pred).2 =
        (ts.filter (pendingSel today pred)).map
          (fun t => t.task_name) := by
  intro ts
  induction ts with
  | nil => intro st _; rfl
  | cons t rest ih =>
    intro st hex
    by_cases hm : today ∈ t.progress
    · simp only [markTasksLoop, if_pos hm]
      rw [ih st hex, List.filter_cons_of_neg (by simp [pendingSel, hm])]
    · by_cases hp : pred t = true
      · simp only [markTasksLoop, if_neg hm, if_pos hp]
        have hu : (update_task_progress st now pid t.task_name today).2 = true := by
          rw [update_task_progress_snd]; exact hex
        have hex' : planExists
            (update_task_progress st now pid t.task_name today).1 pid = true := by
          rw [planExists_update]; exact hex
        rw [hu, ih _ hex',
          List.filter_cons_of_pos (by simp [pendingSel, hm, hp])]
        simp
      · simp only [markTasksLoop, if_neg hm, if_neg hp]
        rw [ih st hex, List.filter_cons_of_neg (by simp [pendingSel, hm, hp])]

/-- The plan loop never changes which plan ids exist. -/
theorem planExists_planLoop (now : Nat) (today q : Str)
    (pred : TaskProgress → Bool) :
    ∀ (plans : List HealthPlan) (st : Store),
      planExists (planLoop st now today pred plans).1 q =
        planExists st q := by
  intro plans
  induction plans with
  | nil => intro st; rfl
  | cons p rest ih =>
    intro st
    simp only [planLoop]
    rw [ih, planExists_markTasksLoop]

/-- When every scanned plan exists in the store, the plan loop records
exactly the pending tasks passing the test, plan by plan. -/
theorem planLoop_marks (now : Nat) (today : Str)
    (pred : TaskProgress → Bool) :
    ∀ (plans : List HealthPlan) (st : Store),
      (∀ p ∈ plans, planExists st p.id = true) →
      (planLoop st now today pred plans).2 =
        plans.flatMap (fun p =>
          (p.tasks.filter (pendingSel today pred)).map
            (fun t => (p.id, t.task_name))) := by
  intro plans
  induction plans with
  | nil => intro st _; rfl
  | cons p rest ih =>
    intro st hex
    simp only [planLoop, List.flatMap_cons]
    have h1 := markTasksLoop_names now p.id today pred p.tasks st
      (hex p (List.mem_cons_self p rest))
    have hex' : ∀ q ∈ rest, planExists
        (markTasksLoop st now p.id today p.tasks pred).1 q.id = true := by
      intro q hq
      rw [planExists_markTasksLoop]
      exact hex q (List.mem_cons_of_mem p hq)
    rw [ih _ hex', h1, List.map_map]
    rfl

/-! # Helper lemmas for the extraction/creation pipeline -/

/-- `create_health_plan` appends exactly one document, whose timeline is
the clamp `min td 7`. -/
theorem create_health_plan_spec (st : Store) (newId : Str) (now : Nat)
    (n c : Str) (td : Int) (ts : List Str) :
    ∃ p, (create_health_plan st newId now n c td ts).1 = st ++ [p] ∧
      p.timeline_days = min td 7 ∧ p.active = true ∧
      p.tasks = ts.map (fun t => { task_name := t, progress := [] }) :=
  ⟨_, rfl, rfl, rfl, rfl⟩

/-- With a plan-bearing dictionary holding at least one task,
`create_and_store_plan` delegates to `create_health_plan` with the
pre-clamped timeline. -/
theorem create_and_store_plan_stores (st : Store) (newId : Str) (now : Nat)
    (d : PlanDict) (hneeds : d.needs_plan.getD false = true)
    (htasks : (d.tasks.getD []).isEmpty = false) :
    (create_and_store_plan st newId now d).1 =
      (create_health_plan st newId now (d.plan_name.getD (str ("Health Plan")))
        (d.condition.getD (str ("General Health")))
        (min (d.timeline_days.getD 7) 7) (d.tasks.getD [])).1 := by
  simp [create_and_store_plan, hneeds, htasks]

/-- On a non-empty match list, the day-pattern extractor reports a plan
whose timeline is the capped match count. -/
theorem extract_spec (ms : List (Str × Str)) (cg tg : Str)
    (hne : ms.isEmpty = false) :
    extract_daily_tasks_from_response ms cg tg =
      (true,
        { needs_plan := some true
          condition := some cg
          plan_name := some tg
          timeline_days := some (min (ms.length : Int) 7)
          tasks := some (ms.map (fun m => cleanTask m.1 m.2))
          hasError := false }) := by
  simp [extract_daily_tasks_from_response, hne]

/-! # Claim theorems -/

/-- C1: `update_task_progress` (the spec's `mark_task_complete`) is
idempotent: when the plan and the task exist, both calls return `True`,
and the second call leaves the task's completion-date list exactly equal
to what the first call produced — in particular with the same elements
and the same size. -/
theorem C1_mark_task_complete_idempotent (st : Store) (n1 n2 : Nat)
    (pid tn d : Str) (p : HealthPlan) (hp : findPlan st pid = some p)
    (_ht : ∃ t ∈ p.tasks, t.task_name = tn) :
    (update_task_progress st n1 pid tn d).2 = true ∧
    (update_task_progress (update_task_progress st n1 pid tn d).1
      n2 pid tn d).2 = true ∧
    progressOf (update_task_progress (update_task_progress st n1 pid tn d).1
      n2 pid tn d).1 pid tn =
      progressOf (update_task_progress st n1 pid tn d).1 pid tn := by
  have hst1 : (update_task_progress st n1 pid tn d).1 =
      setTasks st pid (markFirstTask p.tasks tn d) n1 := by
    simp [update_task_progress, hp]
  have hb1 : (update_task_progress st n1 pid tn d).2 = true := by
    simp [update_task_progress, hp]
  have hfind1 := findPlan_setTasks_self hp (markFirstTask p.tasks tn d) n1
  refine ⟨hb1, ?_, ?_⟩
  · rw [hst1]
    simp [update_task_progress, hfind1]
  · rw [hst1]
    have hst2 : (update_task_progress
        (setTasks st pid (markFirstTask p.tasks tn d) n1) n2 pid tn d).1 =
        setTasks (setTasks st pid (markFirstTask p.tasks tn d) n1) pid
          (markFirstTask (markFirstTask p.tasks tn d) tn d) n2 := by
      simp [update_task_progress, hfind1]
    rw [hst2, markFirstTask_idem]
    unfold progressOf
    rw [findPlan_setTasks_self hfind1, hfind1]
    rfl

/-- Witness for C1 on the sample store. -/
theorem C1_witness :
    (update_task_progress sampleStore 1 (str ("p1"))
      (str ("Do gentle stretches")) (str ("2024-05-01"))).2 = true ∧
    (update_task_progress (update_task_progress sampleStore 1 (str ("p1"))
      (str ("Do gentle stretches")) (str ("2024-05-01"))).1 2 (str ("p1"))
      (str ("Do gentle stretches")) (str ("2024-05-01"))).2 = true ∧
    progressOf (update_task_progress (update_task_progress sampleStore 1
      (str ("p1")) (str ("Do gentle stretches")) (str ("2024-05-01"))).1 2
      (str ("p1")) (str ("Do gentle stretches")) (str ("2024-05-01"))).1
      (str ("p1")) (str ("Do gentle stretches")) =
      progressOf (update_task_progress sampleStore 1 (str ("p1"))
        (str ("Do gentle stretches")) (str ("2024-05-01"))).1 (str ("p1"))
        (str ("Do gentle stretches")) :=
  C1_mark_task_complete_idempotent sampleStore 1 2 (str ("p1"))
    (str ("Do gentle stretches")) (str ("2024-05-01")) samplePlan
    (by decide) ⟨sampleTask, by decide, by decide⟩

/-- C2 (amended): the returned flag of `update_task_progress` is `True`
exactly when a plan with the given id exists — the task name plays no
role in the outcome. -/
theorem C2_update_flag_iff_plan_found (st : Store) (now : Nat)
    (pid tn d : Str) :
    (update_task_progress st now pid tn d).2 = true ↔
      ∃ p ∈ st, p.id = pid := by
  rw [update_task_progress_snd]
  exact planExists_iff

/-- C2 counterexample to the claim as stated: the sample plan exists but
carries no task named `"run"`, and the call still returns `True` (the
claim demands `False`). -/
theorem C2_counterexample :
    (update_task_progress sampleStore 0 (str ("p1")) (str ("run"))
      (str ("2024-05-01"))).2 = true ∧
    samplePlan ∈ sampleStore ∧ samplePlan.id = str ("p1") ∧
    ∀ t ∈ samplePlan.tasks, t.task_name ≠ str ("run") :=
  ⟨by decide, by decide, by decide, by decide⟩

/-- Witness for C2 on the sample store. -/
theorem C2_witness :
    (update_task_progress sampleStore 5 (str ("p1")) (str ("anything"))
      (str ("2024-05-02"))).2 = true :=
  (C2_update_flag_iff_plan_found sampleStore 5 (str ("p1"))
    (str ("anything")) (str ("2024-05-02"))).2 ⟨samplePlan, by decide, by decide⟩

/-- C3 (amended): every stored plan has `timeline_days ≤ 7`, and the
lower bound 1 holds whenever the upstream argument is at least 1 — in
particular on the day-pattern extraction path, where the timeline is the
(positive) match count capped at 7.  The store layer itself never raises
a sub-1 argument to 1 (see the counterexample). -/
theorem C3_timeline_bounds :
    (∀ (st : Store) (newId : Str) (now : Nat) (n c : Str) (td : Int)
        (ts : List Str), ∃ p,
      (create_health_plan st newId now n c td ts).1 = st ++ [p] ∧
      p.timeline_days ≤ 7 ∧ (1 ≤ td → 1 ≤ p.timeline_days)) ∧
    (∀ (ms : List (Str × Str)) (cg tg : Str) (st : Store) (newId : Str)
        (now : Nat),
      (extract_daily_tasks_from_response ms cg tg).1 = true →
      ∃ p, (create_and_store_plan st newId now
          (extract_daily_tasks_from_response ms cg tg).2).1 = st ++ [p] ∧
        1 ≤ p.timeline_days ∧ p.timeline_days ≤ 7) := by
  constructor
  · intro st newId now n c td ts
    obtain ⟨p, hp, htl, -, -⟩ := create_health_plan_spec st newId now n c td ts
    exact ⟨p, hp, htl ▸ min_le_right _ _, fun h1 => htl ▸ le_min h1 (by norm_num)⟩
  · intro ms cg tg st newId now hhas
    have hne : ms.isEmpty = false := by
      cases ms with
      | nil => simp [extract_daily_tasks_from_response] at hhas
      | cons a t => rfl
    have hms : ms ≠ [] := List.isEmpty_eq_false.1 hne
    rw [extract_spec ms cg tg hne]
    have htasks : ((some (ms.map (fun m => cleanTask m.1 m.2)) :
        Option (List Str)).getD []).isEmpty = false := by
      simp [List.isEmpty_eq_false, hms]
    rw [create_and_store_plan_stores _ _ _ _ (by rfl) htasks]
    obtain ⟨p, hp, htl, -, -⟩ := create_health_plan_spec st newId now _ _ _ _
    refine ⟨p, hp, ?_, htl ▸ min_le_right _ _⟩
    rw [htl]
    have hlen : 1 ≤ ms.length := by
      cases ms with
      | nil => exact absurd rfl hms
      | cons a t => simp
    have hlen' : (1 : Int) ≤ (ms.length : Int) := by exact_mod_cast hlen
    simp only [Option.getD_some]
    omega

/-- C3 counterexample to the claim as stated: direct creation with
`timeline_days = 0` stores `0`, which lies outside `[1,7]`. -/
theorem C3_counterexample :
    ((create_health_plan [] (str ("i")) 0 (str ("n")) (str ("c")) 0
      [str ("t")]).1.map (fun p => p.timeline_days)) = [0] ∧
    ¬ ((1 : Int) ≤ 0) :=
  ⟨by decide, by decide⟩

/-- Witness for C3 at a concrete over-long timeline. -/
theorem C3_witness :
    ∃ p, (create_health_plan [] (str ("i")) 0 (str ("n")) (str ("c")) 9
      [str ("t")]).1 = [] ++ [p] ∧
      p.timeline_days ≤ 7 ∧ (1 ≤ (9 : Int) → 1 ≤ p.timeline_days) :=
  C3_timeline_bounds.1 [] (str ("i")) 0 (str ("n")) (str ("c")) 9 [str ("t")]

/-- C4 (amended): the day-pattern path caps `timeline_days` at 7 in its
output, but the free-form LLM path returns the parsed dictionary
verbatim, so its `timeline_days` can exceed 7 (see the counterexample);
the cap on that path is applied only at storage time by
`create_and_store_plan` / `create_health_plan`. -/
theorem C4_timeline_caps_by_path :
    (∀ (ms : List (Str × Str)) (cg tg : Str),
      (extract_daily_tasks_from_response ms cg tg).1 = true →
      (extract_daily_tasks_from_response ms cg tg).2.timeline_days.getD 7 ≤ 7) ∧
    (∀ d : PlanDict, (analyze_for_plan_generation (some d)).2 = d) ∧
    (∀ (st : Store) (newId : Str) (now : Nat) (d : PlanDict)
        (p : HealthPlan),
      (create_and_store_plan st newId now d).1 = st ++ [p] →
      p.timeline_days ≤ 7) := by
  refine ⟨?_, fun d => rfl, ?_⟩
  · intro ms cg tg hhas
    have hne : ms.isEmpty = false := by
      cases ms with
      | nil => simp [extract_daily_tasks_from_response] at hhas
      | cons a t => rfl
    rw [extract_spec ms cg tg hne]
    simp only [Option.getD_some]
    exact min_le_right _ _
  · intro st newId now d p hstore
    by_cases hneeds : d.needs_plan.getD false = true
    · by_cases htasks : (d.tasks.getD []).isEmpty = true
      · exfalso
        have : (create_and_store_plan st newId now d).1 = st := by
          simp [create_and_store_plan, hneeds, htasks]
        rw [this] at hstore
        have := congrArg List.length hstore
        simp at this
      · rw [create_and_store_plan_stores st newId now d hneeds
          (Bool.not_eq_true _ ▸ (by simpa using htasks))] at hstore
        obtain ⟨q, hq, htl, -, -⟩ := create_health_plan_spec st newId now
          (d.plan_name.getD (str ("Health Plan")))
          (d.condition.getD (str ("General Health")))
          (min (d.timeline_days.getD 7) 7) (d.tasks.getD [])
        rw [hq] at hstore
        have hpq : q = p := by
          have := List.append_cancel_left hstore
          simpa using this
        rw [← hpq, htl]
        exact min_le_right _ _
    · exfalso
      have : (create_and_store_plan st newId now d).1 = st := by
        simp [create_and_store_plan, hneeds]
      rw [this] at hstore
      have := congrArg List.length hstore
      simp at this

/-- C4 counterexample to the claim as stated: a parsed dictionary with
`needs_plan = true` and `timeline_days = 100` flows through the LLM path
unchanged, so that path's output exceeds 7. -/
theorem C4_counterexample :
    (analyze_for_plan_generation
      (some { needs_plan := some true, timeline_days := some 100 })).1 = true ∧
    (analyze_for_plan_generation
      (some { needs_plan := some true, timeline_days := some 100 })).2.timeline_days =
      some 100 ∧
    ¬ ((100 : Int) ≤ 7) :=
  ⟨rfl, rfl, by decide⟩

/-- Witness for C4 on a one-day match list. -/
theorem C4_witness :
    (extract_daily_tasks_from_response [(str ("1"), str ("Walk"))]
      (str ("back pain")) (str ("Plan"))).2.timeline_days.getD 7 ≤ 7 :=
  C4_timeline_caps_by_path.1 [(str ("1"), str ("Walk"))] (str ("back pain"))
    (str ("Plan")) (by decide)

/-- C9: day-pattern extraction over nine day blocks reports a plan and
caps the timeline at 7. -/
theorem C9_nine_day_blocks_capped (ms : List (Str × Str)) (cg tg : Str)
    (h : ms.length = 9) :
    (extract_daily_tasks_from_response ms cg tg).1 = true ∧
    (extract_daily_tasks_from_response ms cg tg).2.timeline_days = some 7 := by
  have hne : ms.isEmpty = false := by
    cases ms with
    | nil => simp at h
    | cons a t => rfl
  rw [extract_spec ms cg tg hne, h]
  exact ⟨rfl, rfl⟩

/-- Witness for C9 on an explicit nine-block match list. -/
theorem C9_witness :
    (extract_daily_tasks_from_response
      ((List.range 9).map (fun _ => (str ("n"), str ("walk"))))
      (str ("back pain")) (str ("Plan"))).1 = true ∧
    (extract_daily_tasks_from_response
      ((List.range 9).map (fun _ => (str ("n"), str ("walk"))))
      (str ("back pain")) (str ("Plan"))).2.timeline_days = some 7 :=
  C9_nine_day_blocks_capped _ _ _ (by decide)

/-- C10: completion-date sets only grow: `update_task_progress` at most
appends one date, and `create_health_plan` / `deactivate_plan` leave
every existing task's completion list untouched. -/
theorem C10_completion_sets_monotone :
    (∀ (st : Store) (now : Nat) (pid tn d q tn' : Str) (l : List Str),
      progressOf st q tn' = some l →
      ∃ l', progressOf (update_task_progress st now pid tn d).1 q tn' =
        some l' ∧ l ⊆ l') ∧
    (∀ (st : Store) (newId : Str) (now : Nat) (n c : Str) (td : Int)
        (ts : List Str) (q tn : Str) (l : List Str),
      progressOf st q tn = some l →
      progressOf (create_health_plan st newId now n c td ts).1 q tn =
        some l) ∧
    (∀ (st : Store) (now : Nat) (pid q tn : Str),
      progressOf (deactivate_plan st now pid).1 q tn =
        progressOf st q tn) := by
  refine ⟨?_, ?_, ?_⟩
  · intro st now pid tn d q tn' l h
    exact progressOf_update_superset st now pid tn d q tn' h
  · intro st newId now n c td ts q tn l h
    exact progressOf_create st newId now n c td ts q tn h
  · intro st now pid q tn
    exact progressOf_deactivate st now pid q tn

/-- Witness for C10 on the sample store. -/
theorem C10_witness :
    (∃ l', progressOf (update_task_progress sampleStore 1 (str ("p1"))
        (str ("Do gentle stretches")) (str ("2024-05-01"))).1 (str ("p1"))
        (str ("Do gentle stretches")) = some l' ∧ [] ⊆ l') ∧
    progressOf (create_health_plan sampleStore (str ("p9")) 1 (str ("n"))
      (str ("c")) 3 [str ("t")]).1 (str ("p1"))
      (str ("Do gentle stretches")) = some [] ∧
    progressOf (deactivate_plan sampleStore 1 (str ("p1"))).1 (str ("p1"))
      (str ("Do gentle stretches")) =
      progressOf sampleStore (str ("p1")) (str ("Do gentle stretches")) :=
  ⟨C10_completion_sets_monotone.1 sampleStore 1 (str ("p1"))
      (str ("Do gentle stretches")) (str ("2024-05-01")) (str ("p1"))
      (str ("Do gentle stretches")) [] (by decide),
    C10_completion_sets_monotone.2.1 sampleStore (str ("p9")) 1 (str ("n"))
      (str ("c")) 3 [str ("t")] (str ("p1"))
      (str ("Do gentle stretches")) [] (by decide),
    C10_completion_sets_monotone.2.2 sampleStore 1 (str ("p1")) (str ("p1"))
      (str ("Do gentle stretches"))⟩

/-! # Helper lemmas for the reconciler endpoint -/

/-- Directed-mode reduction of `daily_progress_report`. -/
theorem daily_report_directed (st : Store) (now : Nat) (today msg : Str)
    (flag : Bool) (tc : Option Str)
    (hmode : (flag || pySubstr (str ("mark all")) (pyLower msg) ||
      pySubstr (str ("all tasks")) (pyLower msg)) = true) :
    daily_progress_report st now today msg flag tc =
      match (match tc with
        | some t => condTarget (get_active_plans st) t
        | none => heurTarget (get_active_plans st) (pyLower msg)) with
      | none => (st, [])
      | some p =>
        ((markTasksLoop st now p.id today p.tasks (fun _ => true)).1,
          (markTasksLoop st now p.id today p.tasks (fun _ => true)).2.map
            (fun n => (p.id, n))) := by
  simp only [daily_progress_report, hmode, if_true]

/-- Heuristic-mode reduction of `daily_progress_report`. -/
theorem daily_report_heuristic (st : Store) (now : Nat) (today msg : Str)
    (flag : Bool) (tc : Option Str)
    (hmode : (flag || pySubstr (str ("mark all")) (pyLower msg) ||
      pySubstr (str ("all tasks")) (pyLower msg)) = false) :
    daily_progress_report st now today msg flag tc =
      planLoop st now today (heurTaskPred (pyLower msg))
        (get_active_plans st) := by
  simp only [daily_progress_report, hmode, Bool.false_eq_true, if_false]

/-- Names collected by the marking loop are task names of the scanned
list. -/
theorem markTasksLoop_names_sub (now : Nat) (pid today : Str)
    (pred : TaskProgress → Bool) :
    ∀ (ts : List TaskProgress) (st : Store) (n : Str),
      n ∈ (markTasksLoop st now pid today ts pred).2 →
      ∃ t ∈ ts, t.task_name = n := by
  intro ts
  induction ts with
  | nil => intro st n h; simp [markTasksLoop] at h
  | cons t rest ih =>
    intro st n h
    by_cases hm : today ∈ t.progress
    · simp only [markTasksLoop, if_pos hm] at h
      obtain ⟨u, hu, hn⟩ := ih st n h
      exact ⟨u, List.mem_cons_of_mem t hu, hn⟩
    · by_cases hp : pred t = true
      · simp only [markTasksLoop, if_neg hm, if_pos hp] at h
        by_cases hok : (update_task_progress st now pid t.task_name today).2 = true
        · rw [if_pos hok] at h
          rcases List.mem_cons.1 h with h | h
          · exact ⟨t, List.mem_cons_self t rest, h.symm⟩
          · obtain ⟨u, hu, hn⟩ := ih _ n h
            exact ⟨u, List.mem_cons_of_mem t hu, hn⟩
        · rw [if_neg hok] at h
          obtain ⟨u, hu, hn⟩ := ih _ n h
          exact ⟨u, List.mem_cons_of_mem t hu, hn⟩
      · simp only [markTasksLoop, if_neg hm, if_neg hp] at h
        obtain ⟨u, hu, hn⟩ := ih st n h
        exact ⟨u, List.mem_cons_of_mem t hu, hn⟩

/-- Every pair collected by the plan loop carries the id of a scanned
plan. -/
theorem planLoop_marks_sub (now : Nat) (today : Str)
    (pred : TaskProgress → Bool) :
    ∀ (plans : List HealthPlan) (st : Store) (pid tn : Str),
      (pid, tn) ∈ (planLoop st now today pred plans).2 →
      ∃ p ∈ plans, p.id = pid := by
  intro plans
  induction plans with
  | nil => intro st pid tn h; simp [planLoop] at h
  | cons p rest ih =>
    intro st pid tn h
    simp only [planLoop] at h
    rcases List.mem_append.1 h with h | h
    · obtain ⟨n, _, heq⟩ := List.mem_map.1 h
      exact ⟨p, List.mem_cons_self p rest,
        (Prod.mk.injEq _ _ _ _ ▸ heq).1⟩
    · obtain ⟨q, hq, hid⟩ := ih _ pid tn h
      exact ⟨q, List.mem_cons_of_mem p hq, hid⟩

/-- Plans of the active snapshot exist in the store. -/
theorem active_plans_exist (st : Store) :
    ∀ p ∈ get_active_plans st, planExists st p.id = true := by
  intro p hp
  exact planExists_iff.2 ⟨p, (mem_get_active_plans.1 hp).1, rfl⟩

/-- C5 (amended): in heuristic mode a pending task is marked for today
iff the message contains at least one completion-indicator word AND
(some message word longer than 3 characters occurs inside the task's
lowercased name, OR the message contains two or more distinct indicator
words).  The claim's clause (a) alone does not mark: without any
indicator word nothing is marked (see the counterexample). -/
theorem C5_heuristic_marking (st : Store) (now : Nat) (today msg : Str)
    (tc : Option Str)
    (hmode : (false || pySubstr (str ("mark all")) (pyLower msg) ||
      pySubstr (str ("all tasks")) (pyLower msg)) = false)
    (pid tn : Str) :
    (pid, tn) ∈ (daily_progress_report st now today msg false tc).2 ↔
      ∃ p ∈ get_active_plans st, p.id = pid ∧
        ∃ t ∈ p.tasks, t.task_name = tn ∧ today ∉ t.progress ∧
          hasIndicator (pyLower msg) = true ∧
          (taskOverlap (pyLower msg) t = true ∨
            2 ≤ indicatorCount (pyLower msg)) := by
  rw [daily_report_heuristic st now today msg false tc hmode]
  rw [planLoop_marks now today _ (get_active_plans st) st
    (active_plans_exist st)]
  rw [List.mem_flatMap]
  constructor
  · rintro ⟨p, hp, hmem⟩
    obtain ⟨t, ht, heq⟩ := List.mem_map.1 hmem
    obtain ⟨htmem, htsel⟩ := List.mem_filter.1 ht
    have hpid : p.id = pid := (Prod.mk.injEq _ _ _ _ ▸ heq).1
    have htn : t.task_name = tn := (Prod.mk.injEq _ _ _ _ ▸ heq).2
    simp only [pendingSel, heurTaskPred, Bool.and_eq_true, Bool.or_eq_true,
      Bool.not_eq_true', decide_eq_false_iff_not, decide_eq_true_eq] at htsel
    exact ⟨p, hp, hpid, t, htmem, htn, htsel.1, htsel.2.1,
      htsel.2.2⟩
  · rintro ⟨p, hp, hpid, t, htmem, htn, hpend, hind, hor⟩
    refine ⟨p, hp, List.mem_map.2 ⟨t, List.mem_filter.2 ⟨htmem, ?_⟩, ?_⟩⟩
    · simp only [pendingSel, heurTaskPred, Bool.and_eq_true, Bool.or_eq_true,
        Bool.not_eq_true', decide_eq_false_iff_not, decide_eq_true_eq]
      exact ⟨hpend, hind, hor⟩
    · rw [hpid, htn]

/-- C5 counterexample to the claim as stated: the message `"stretches"`
satisfies clause (a) — it shares the word `"stretches"` (length 9 > 3)
with the pending sample task's name — yet the reconciler marks nothing,
because the message carries no completion-indicator word. -/
theorem C5_counterexample :
    (∃ w ∈ pySplit (pyLower sampleTask.task_name), 3 < w.length ∧
      pySubstr w (pyLower (str ("stretches"))) = true) ∧
    (daily_progress_report sampleStore 0 (str ("2024-05-01"))
      (str ("stretches")) false none).2 = [] :=
  ⟨⟨str ("stretches"), by decide, by decide, by decide⟩, by decide⟩

/-- Witness for C5: the generic confirmation with two or more indicator
words and zero lexical overlap still marks the pending sample task. -/
theorem C5_witness :
    (str ("p1"), str ("Do gentle stretches")) ∈
      (daily_progress_report sampleStore 0 (str ("2024-05-01"))
        (str ("yes done, finished, all good")) false none).2 :=
  (C5_heuristic_marking sampleStore 0 (str ("2024-05-01"))
    (str ("yes done, finished, all good")) none (by decide)
    (str ("p1")) (str ("Do gentle stretches"))).2
    ⟨samplePlan, by decide, by decide, sampleTask, by decide, by decide,
      by decide, by decide, Or.inr (by decide)⟩

/-- C6 (amended): whenever at least one specialist counter document
exists, the trailing window has exactly 7 entries, in chronological
order from `today - 6` up to `today`, and a day on which no specialist
recorded any words still appears, with a zero word total.  With no
counter documents at all, the function returns the empty list instead
(see the counterexample). -/
theorem C6_trailing_window (stats : List SpecStat) (today : Int)
    (h : stats ≠ []) :
    (get_time_spent_last_7_days stats today).length = 7 ∧
    (get_time_spent_last_7_days stats today).map (fun e => e.date) =
      [today - 6, today - 5, today - 4, today - 3, today - 2, today - 1,
        today] ∧
    List.Chain' (fun a b => a < b)
      ((get_time_spent_last_7_days stats today).map (fun e => e.date)) ∧
    ∀ e ∈ get_time_spent_last_7_days stats today,
      (∀ s ∈ stats, lookupCount s.daily_word_counts e.date = 0) →
      e.total_words = 0 := by
  have hne : stats.isEmpty = false := List.isEmpty_eq_false.2 h
  have hdates : ((List.range 7).map (fun i => today - (i : Int))).reverse =
      [today - 6, today - 5, today - 4, today - 3, today - 2, today - 1,
        today] := by
    simp [List.range_succ]
  have hexp : get_time_spent_last_7_days stats today =
      ([today - 6, today - 5, today - 4, today - 3, today - 2, today - 1,
        today]).map (fun d =>
        { date := d
          total_words :=
            (stats.map (fun s => lookupCount s.daily_word_counts d)).sum
          specialist_breakdown :=
            (stats.filter (fun s => 0 < lookupCount s.daily_word_counts d)).map
              (fun s => (s.specialist_name, lookupCount s.daily_word_counts d)) }) := by
    unfold get_time_spent_last_7_days
    rw [if_neg (by simp [hne]), hdates]
  have hmap : (get_time_spent_last_7_days stats today).map (fun e => e.date) =
      [today - 6, today - 5, today - 4, today - 3, today - 2, today - 1,
        today] := by
    rw [hexp, List.map_map]
    rfl
  refine ⟨?_, hmap, ?_, ?_⟩
  · rw [hexp]
    rfl
  · rw [hmap]
    simp only [List.chain'_cons, List.chain'_singleton, and_true]
    omega
  · intro e he hz
    rw [hexp] at he
    obtain ⟨d, hd, rfl⟩ := List.mem_map.1 he
    exact List.sum_eq_zero (fun x hx => by
      obtain ⟨s, hs, rfl⟩ := List.mem_map.1 hx
      exact hz s hs)

/-- C6 counterexample to the claim as stated: with no counters at all
the window is empty, not 7 zero-filled entries. -/
theorem C6_counterexample :
    get_time_spent_last_7_days [] 0 = [] ∧
    (get_time_spent_last_7_days [] 0).length ≠ 7 :=
  ⟨rfl, by decide⟩

/-- Witness for C6 on a one-counter store. -/
theorem C6_witness :
    (get_time_spent_last_7_days [sampleStat] 0).length = 7 :=
  (C6_trailing_window [sampleStat] 0 (by simp)).1

/-- C7: the active-plan snapshot contains exactly the plans flagged
active, every plan matcher (chat deactivation, condition-directed,
message-keyword) only returns active plans, and every completion the
reconciler writes belongs to an active plan. -/
theorem C7_deactivated_plans_excluded :
    (∀ (st : Store) (p : HealthPlan),
      p ∈ get_active_plans st ↔ p ∈ st ∧ p.active = true) ∧
    (∀ (st : Store) (msg : Str) (p : HealthPlan),
      chatDeactTarget st msg = some p → p ∈ st ∧ p.active = true) ∧
    (∀ (st : Store) (tc : Str) (p : HealthPlan),
      condTarget (get_active_plans st) tc = some p →
      p ∈ st ∧ p.active = true) ∧
    (∀ (st : Store) (ml : Str) (p : HealthPlan),
      heurTarget (get_active_plans st) ml = some p →
      p ∈ st ∧ p.active = true) ∧
    (∀ (st : Store) (now : Nat) (today msg : Str) (flag : Bool)
        (tc : Option Str) (pid tn : Str),
      (pid, tn) ∈ (daily_progress_report st now today msg flag tc).2 →
      ∃ p ∈ st, p.active = true ∧ p.id = pid) := by
  refine ⟨fun st p => mem_get_active_plans, ?_, ?_, ?_, ?_⟩
  · intro st msg p h
    exact mem_get_active_plans.1 (List.mem_of_find?_eq_some h)
  · intro st tc p h
    exact mem_get_active_plans.1 (List.mem_of_find?_eq_some h)
  · intro st ml p h
    exact mem_get_active_plans.1 (List.mem_of_find?_eq_some h)
  · intro st now today msg flag tc pid tn h
    by_cases hmode : (flag || pySubstr (str ("mark all")) (pyLower msg) ||
        pySubstr (str ("all tasks")) (pyLower msg)) = true
    · rw [daily_report_directed st now today msg flag tc hmode] at h
      rcases htgt : (match tc with
          | some t => condTarget (get_active_plans st) t
          | none => heurTarget (get_active_plans st) (pyLower msg)) with _ | p
      · rw [htgt] at h
        simp at h
      · rw [htgt] at h
        simp only [] at h
        obtain ⟨n, _, heq⟩ := List.mem_map.1 h
        have hpid : p.id = pid := (Prod.mk.injEq _ _ _ _ ▸ heq).1
        have hp : p ∈ get_active_plans st := by
          rcases tc with _ | t
          · exact List.mem_of_find?_eq_some htgt
          · exact List.mem_of_find?_eq_some htgt
        obtain ⟨hmem, hact⟩ := mem_get_active_plans.1 hp
        exact ⟨p, hmem, hact, hpid⟩
    · rw [daily_report_heuristic st now today msg flag tc
        (Bool.not_eq_true _ ▸ (by simpa using hmode))] at h
      obtain ⟨p, hp, hpid⟩ := planLoop_marks_sub now today _
        (get_active_plans st) st pid tn h
      obtain ⟨hmem, hact⟩ := mem_get_active_plans.1 hp
      exact ⟨p, hmem, hact, hpid⟩

/-- Witness for C7 on the sample store: the snapshot characterisation
and the matcher conclusion at concrete inputs. -/
theorem C7_witness :
    (samplePlan ∈ get_active_plans sampleStore ↔
      samplePlan ∈ sampleStore ∧ samplePlan.active = true) ∧
    (chatDeactTarget sampleStore (str ("stop the back pain plan")) =
        some samplePlan →
      samplePlan ∈ sampleStore ∧ samplePlan.active = true) :=
  ⟨C7_deactivated_plans_excluded.1 sampleStore samplePlan,
    C7_deactivated_plans_excluded.2.1 sampleStore
      (str ("stop the back pain plan")) samplePlan⟩

/-- C8: a plan whose condition and name contain no word longer than 3
characters is never returned by any of the plan matchers, whatever the
input text. -/
theorem C8_short_plans_never_matched (p : HealthPlan)
    (hc : ∀ w ∈ pySplit p.condition, w.length ≤ 3)
    (hn : ∀ w ∈ pySplit p.plan_name, w.length ≤ 3) :
    (∀ (st : Store) (msg : Str), chatDeactTarget st msg ≠ some p) ∧
    (∀ (plans : List HealthPlan) (tc : Str),
      condTarget plans tc ≠ some p) ∧
    (∀ (plans : List HealthPlan) (ml : Str),
      heurTarget plans ml ≠ some p) := by
  refine ⟨?_, ?_, ?_⟩
  · intro st msg
    exact find?_ne_of_pred_false (deactMatches_false hc hn msg)
  · intro plans tc
    exact find?_ne_of_pred_false (condTargetMatches_false hc tc)
  · intro plans ml
    exact find?_ne_of_pred_false (heurTargetMatches_false hc ml)

/-- Witness for C8 on a concrete short-word plan. -/
theorem C8_witness :
    chatDeactTarget [shortWordPlan] (str ("please stop it now")) ≠
      some shortWordPlan ∧
    condTarget [shortWordPlan] (str ("be ok things")) ≠ some shortWordPlan :=
  ⟨(C8_short_plans_never_matched shortWordPlan (by decide) (by decide)).1
      [shortWordPlan] (str ("please stop it now")),
    (C8_short_plans_never_matched shortWordPlan (by decide) (by decide)).2.1
      [shortWordPlan] (str ("be ok things"))⟩

end HealthBot
